import Mathlib

/-!
Shallow embedding of the ISL phrase-to-video matching, playlist and
stitching pipeline of the repository (functions `getIslVideos`,
`getIslVideoPlaylist`, `stitchVideosWithFfmpeg` and the digit
pre-processing in `handleGenerateAnnouncement`, all in the server
actions module).  JavaScript strings are modelled through `List Char`;
JavaScript `Map` get/set through an association list where a later
`set` shadows an earlier one; the external effects of the stitcher
(directory creation, manifest write, ffmpeg invocation) through an
explicit effect trace together with an environment of success flags.
-/

/-- The whitespace class of the JavaScript regex `\s` (the members that
matter here; the full class also holds further Unicode space code
points, none of which any claim or clip name uses). -/
def jsIsWs (c : Char) : Bool :=
  c.val = 32 || c.val = 9 || c.val = 10 || c.val = 11 || c.val = 12 ||
  c.val = 13 || c.val = 160 || c.val = 0x2028 || c.val = 0x2029 || c.val = 0xfeff

/-- `String.prototype.toLowerCase`, character by character (exact on the
ASCII range, which is all the pipeline's inputs use). -/
def lowerChars (l : List Char) : List Char := l.map Char.toLower

/-- `text.replace(/[.,]/g, '')`: delete every `.` and `,`. -/
def removePunct (l : List Char) : List Char :=
  l.filter (fun c => !(c = '.' || c = ','))

/-- Worker for `String.prototype.split(/\s+/)`.  The state is `some cur`
while inside a (possibly empty) piece whose read characters are `cur`
(reversed), and `none` directly after a separator character, while the
rest of that maximal whitespace run is being consumed. -/
def splitWsGo : List Char → Option (List Char) → List (List Char)
  | [], some cur => [cur.reverse]
  | [], none => [[]]
  | c :: rest, some cur =>
      if jsIsWs c then cur.reverse :: splitWsGo rest none
      else splitWsGo rest (some (c :: cur))
  | c :: rest, none =>
      if jsIsWs c then splitWsGo rest none
      else splitWsGo rest (some [c])

/-- `s.split(/\s+/)`: split on maximal whitespace runs; a leading or
trailing run contributes an empty piece, exactly as in JavaScript
(`" a ".split(/\s+/)` is `["", "a", ""]`, `"".split(/\s+/)` is `[""]`). -/
def jsSplitWs (l : List Char) : List String :=
  (splitWsGo l (some [])).map String.mk

/-- `s.split(sep)` for a one-character separator (used with `/`):
non-collapsing, keeps empty pieces. -/
def splitCh (sep : Char) : List Char → List (List Char)
  | [] => [[]]
  | c :: rest =>
      if c = sep then [] :: splitCh sep rest
      else
        match splitCh sep rest with
        | p :: ps => (c :: p) :: ps
        | [] => [[c]]

/-- `str.replace(sub, '')` for a plain-string pattern: JavaScript
removes only the FIRST occurrence of `sub` (the string is returned
unchanged when `sub` does not occur). -/
def removeFirstOcc (sub : List Char) : List Char → List Char
  | [] => []
  | c :: rest =>
      if sub.isPrefixOf (c :: rest) then (c :: rest).drop sub.length
      else c :: removeFirstOcc sub rest

/-- `str.replace(/_/g, ' ')`. -/
def underscoreToSpace (l : List Char) : List Char :=
  l.map (fun c => if c = '_' then ' ' else c)

/-- `arr.join(' ')`. -/
def joinSpace : List String → String
  | [] => ""
  | [x] => x
  | x :: rest => x ++ " " ++ joinSpace rest

/-- `arr.join` with the newline character as separator. -/
def joinNewline : List String → String
  | [] => ""
  | [x] => x
  | x :: rest => x ++ "\n" ++ joinNewline rest

/-- `p.split('/').pop()` (never `undefined`: `split` always returns a
non-empty array, so the `?? ''` default of the source is dead). -/
def lastSegment (p : String) : String :=
  String.mk ((splitCh '/' p.toList).getLastD [])

/-- The tokenizer of `getIslVideoPlaylist`:
`text.toLowerCase().replace(/[.,]/g, '').split(/\s+/)`. -/
def tokenize (text : String) : List String :=
  jsSplitWs (removePunct (lowerChars text.toList))

/-- A JavaScript `Map<string, string>` as used for `videoMap`, modelled
for its get/set behaviour: `set` prepends, `get`/`has` find the most
recent entry, so a later `set` of the same key shadows an earlier one
(last writer wins), as in the source. -/
abbrev VideoMap : Type := List (String × String)

/-- `map.set(k, v)`. -/
def mapSet (m : VideoMap) (k v : String) : VideoMap := (k, v) :: m

/-- `map.get(k)` (`map.has(k)` is `(mapGet m k).isSome`). -/
def mapGet (m : VideoMap) (k : String) : Option String :=
  (m.find? (fun kv => kv.1 = k)).map (fun kv => kv.2)

/-- The normalized library key computed by `getIslVideoPlaylist` for a
clip path `p`:
`p.split('/').pop()?.replace('.mp4', '').replace(/_/g, ' ') ?? ''`,
then `.toLowerCase()` at the `set` site.  Note `replace('.mp4', '')`
removes the FIRST occurrence of the substring `.mp4`, which is the
final extension only when `.mp4` occurs nowhere earlier in the name. -/
def clipFileName (p : String) : String :=
  String.mk (underscoreToSpace (removeFirstOcc ".mp4".toList (lastSegment p).toList))

/-- The `videoMap` built at the start of `getIslVideoPlaylist`:
`allVideoPaths.forEach(p => { const fileName = ...; if (fileName) map.set(fileName.toLowerCase(), p) })`. -/
def buildVideoMap (allVideoPaths : List String) : VideoMap :=
  allVideoPaths.foldl
    (fun m p =>
      let fileName := clipFileName p
      if fileName = "" then m
      else mapSet m (String.mk (lowerChars fileName.toList)) p)
    []

/-- A directory entry of the clip library tree under `public/isl_dataset`.
A directory carries a `readable` flag: `fs.readdir` on an unreadable
directory throws, and `findVideos` catches that and returns the files
collected so far for that directory (none). -/
inductive FsEntry where
  | file (name : String)
  | dir (name : String) (readable : Bool) (entries : List FsEntry)

mutual

/-- One step of the recursive `findVideos` of `getIslVideos`: a file is
collected when its name ends with `.mp4` (path relative to `public`,
with a leading `/`); a directory is recursed into. -/
def findVideosEntry (dirPath : String) : FsEntry → List String
  | .file name =>
      if ".mp4".toList.isSuffixOf name.toList then [dirPath ++ "/" ++ name] else []
  | .dir name readable entries =>
      if readable then findVideosList (dirPath ++ "/" ++ name) entries else []

/-- `findVideos` over the listed entries of one readable directory. -/
def findVideosList (dirPath : String) : List FsEntry → List String
  | [] => []
  | e :: rest => findVideosEntry dirPath e ++ findVideosList dirPath rest

end

/-- `getIslVideos`: the root is `public/isl_dataset`; `fs.access` failing
(absent or inaccessible root, modelled as `none`) is caught and yields
`[]`; otherwise the tree is traversed depth-first. -/
def getIslVideos (root : Option (List FsEntry)) : List String :=
  match root with
  | none => []
  | some entries => findVideosList "/isl_dataset" entries

/-- The phrase window `words.slice(i, i + len).join(' ')` (the source
writes `words.slice(i, j + 1)` with `j = i + len - 1`). -/
def phraseAt (words : List String) (i len : Nat) : String :=
  joinSpace ((words.drop i).take len)

/-- The inner `for (let j = Math.min(i + 2, words.length - 1); j >= i; j--)`
loop of `getIslVideoPlaylist`, with `d = j - i`: test the window of
length `d + 1` first, then shorter ones.  On success it returns the
clip path together with the offset `d`, and the source then sets the
cursor to `j + 1 = i + d + 1`. -/
def tryWindows (m : VideoMap) (words : List String) (i : Nat) : Nat → Option (String × Nat)
  | 0 =>
      match mapGet m (phraseAt words i 1) with
      | some p => some (p, 0)
      | none => none
  | d + 1 =>
      match mapGet m (phraseAt words i (d + 2)) with
      | some p => some (p, d + 1)
      | none => tryWindows m words i d

/-- The `while (i < words.length)` matching loop of `getIslVideoPlaylist`,
with an explicit fuel bound (each iteration advances the cursor by at
least one, so any `fuel ≥ words.length - i` gives the loop's exact
behaviour; `matchLoop` below supplies such a bound).  The source's
`Math.min(i + 2, words.length - 1)` for the top index `j` becomes the
top offset `min (i + 2) (words.length - 1) - i`.  When no window
matched, the fallback re-tests `videoMap.has(words[i])` and in either
case advances the cursor by one. -/
def matchGo (m : VideoMap) (words : List String) : Nat → Nat → List String
  | 0, _ => []
  | fuel + 1, i =>
      if i < words.length then
        match tryWindows m words i (min (i + 2) (words.length - 1) - i) with
        | some (p, off) => p :: matchGo m words fuel (i + off + 1)
        | none =>
            match mapGet m (words.getD i "") with
            | some p => p :: matchGo m words fuel (i + 1)
            | none => matchGo m words fuel (i + 1)
      else []

/-- The matching stage of `getIslVideoPlaylist` from cursor `i`. -/
def matchLoop (m : VideoMap) (words : List String) (i : Nat) : List String :=
  matchGo m words (words.length - i) i


/-- One external operation attempted by `stitchVideosWithFfmpeg`, in
order of occurrence in the source: `fs.mkdir(outputDir, {recursive})`,
`fs.writeFile(tempListPath, fileListContent)`, `execAsync(ffmpegCommand)`,
`fs.unlink(tempListPath)`. -/
inductive StitchOp where
  | mkdirOutput (dir : String)
  | writeManifest (file content : String)
  | runFfmpeg (cmd : String)
  | removeManifest (file : String)
deriving DecidableEq

/-- Environment for the stitcher's external world: whether each fallible
step succeeds.  The `unlink` step is wrapped in `.catch(() => {})` in
the source, so it has no failure flag. -/
structure StitchEnv where
  mkdirOk : Bool
  writeOk : Bool
  execOk : Bool
deriving DecidableEq

/-- `stitchVideosWithFfmpeg(videoPaths, outputFileName)`: returns the
result (`null` on failure) together with the trace of attempted
external operations.  Empty and singleton lists return before the `try`
block, so with an empty trace.  Any step that throws inside the `try`
block aborts the rest and the `catch` returns `null`. -/
def stitchVideosWithFfmpeg (env : StitchEnv) (cwd : String)
    (videoPaths : List String) (outputFileName : String) :
    Option String × List StitchOp :=
  if videoPaths.length = 0 then (none, [])
  else if videoPaths.length = 1 then (some (videoPaths.getD 0 ""), [])
  else
    let outputDir := cwd ++ "/public/audio/_announcements"
    let outputPath := outputDir ++ "/" ++ outputFileName
    let tempListPath := outputDir ++ "/temp_video_list.txt"
    let fileListContent :=
      joinNewline (videoPaths.map (fun videoPath =>
        "file \x27" ++ cwd ++ "/public" ++ videoPath ++ "\x27"))
    let ffmpegCommand :=
      "ffmpeg -f concat -safe 0 -i \x22" ++ tempListPath ++
        "\x22 -c copy \x22" ++ outputPath ++ "\x22 -y"
    if !env.mkdirOk then (none, [.mkdirOutput outputDir])
    else if !env.writeOk then
      (none, [.mkdirOutput outputDir, .writeManifest tempListPath fileListContent])
    else if !env.execOk then
      (none, [.mkdirOutput outputDir, .writeManifest tempListPath fileListContent,
              .runFfmpeg ffmpegCommand])
    else
      (some (String.mk (removeFirstOcc (cwd ++ "/public").toList outputPath.toList)),
       [.mkdirOutput outputDir, .writeManifest tempListPath fileListContent,
        .runFfmpeg ffmpegCommand, .removeManifest tempListPath])

/-- The stitched `getIslVideoPlaylist(text)` entry point (the variant
whose matching stage is followed by stitching): empty text returns `[]`
at once; otherwise the library is indexed, the text tokenized and
matched, and a non-empty playlist is handed to the stitcher, whose
`null` (and, by JavaScript truthiness, empty-string) result yields `[]`
— never the unstitched multi-clip list.  The `Date.now()`-based output
file name is a parameter. -/
def getIslVideoPlaylist (env : StitchEnv) (cwd : String)
    (root : Option (List FsEntry)) (outputFileName : String) (text : String) :
    List String × List StitchOp :=
  if text = "" then ([], [])
  else
    let allVideoPaths := getIslVideos root
    let videoMap := buildVideoMap allVideoPaths
    let words := tokenize text
    let playlist := matchLoop videoMap words 0
    if 0 < playlist.length then
      match stitchVideosWithFfmpeg env cwd playlist outputFileName with
      | (some stitchedVideo, ops) =>
          (if stitchedVideo = "" then [] else [stitchedVideo], ops)
      | (none, ops) => ([], ops)
    else ([], [])

/-- The digit pre-processing of `handleGenerateAnnouncement`:
`text.replace(/(\d)/g, ' $1 ')` — a space is inserted immediately
before and after every digit character (each digit separately, not each
numeric run). -/
def normalizeDigits (text : String) : String :=
  String.mk (text.toList.flatMap (fun c => if c.isDigit then [' ', c, ' '] else [c]))


/-- Instrumented copy of `matchGo` that records, for each accepted
match, the half-open token interval it consumed together with the
pushed clip path: `(start, nextCursor, path)`.  Used to state the
non-overlap / order-preservation invariant of the matching loop. -/
def matchGoTr (m : VideoMap) (words : List String) : Nat → Nat → List (Nat × Nat × String)
  | 0, _ => []
  | fuel + 1, i =>
      if i < words.length then
        match tryWindows m words i (min (i + 2) (words.length - 1) - i) with
        | some (p, off) => (i, i + off + 1, p) :: matchGoTr m words fuel (i + off + 1)
        | none =>
            match mapGet m (words.getD i "") with
            | some p => (i, i + 1, p) :: matchGoTr m words fuel (i + 1)
            | none => matchGoTr m words fuel (i + 1)
      else []

/-- The match trace of the matching stage from cursor `i`. -/
def matchLoopTr (m : VideoMap) (words : List String) (i : Nat) : List (Nat × Nat × String) :=
  matchGoTr m words (words.length - i) i

/-- The intervals of a match trace are in order and pairwise disjoint:
each starts no earlier than `lo`, is non-degenerate, and ends no later
than the start of the next. -/
def Chained (lo : Nat) : List (Nat × Nat × String) → Prop
  | [] => True
  | t :: rest => lo ≤ t.1 ∧ t.1 < t.2.1 ∧ Chained t.2.1 rest

/-- Copy of `matchGo` with the single-word fallback branch deleted (the
refinement claimed by C10): when no phrase window matches, the cursor
just advances. -/
def matchGoNoFallback (m : VideoMap) (words : List String) : Nat → Nat → List String
  | 0, _ => []
  | fuel + 1, i =>
      if i < words.length then
        match tryWindows m words i (min (i + 2) (words.length - 1) - i) with
        | some (p, off) => p :: matchGoNoFallback m words fuel (i + off + 1)
        | none => matchGoNoFallback m words fuel (i + 1)
      else []

/-- The matching stage with the fallback branch deleted. -/
def matchLoopNoFallback (m : VideoMap) (words : List String) (i : Nat) : List String :=
  matchGoNoFallback m words (words.length - i) i

/-- Modelled from the spec's words (for the refinement comparison of
C7): the library key as the spec describes it — the file's base name
with the clip extension stripped (the trailing `.mp4` removed),
underscores replaced by spaces, and lowercased. -/
def specClipKey (p : String) : String :=
  let base := (lastSegment p).toList
  let stemChars := if ".mp4".toList.isSuffixOf base then base.take (base.length - 4) else base
  String.mk (lowerChars (underscoreToSpace stemChars))

theorem matchGo_congr (m : VideoMap) (words : List String) :
    ∀ fuel fuel' i, words.length - i ≤ fuel → words.length - i ≤ fuel' →
      matchGo m words fuel i = matchGo m words fuel' i := by
  intro fuel
  induction fuel with
  | zero =>
      intro fuel' i h h'
      have hi : ¬ i < words.length := by omega
      cases fuel' with
      | zero => rfl
      | succ f' => simp [matchGo, hi]
  | succ f ih =>
      intro fuel' i h h'
      by_cases hi : i < words.length
      · cases fuel' with
        | zero => omega
        | succ f' =>
            simp only [matchGo, hi, if_true]
            cases htw : tryWindows m words i (min (i + 2) (words.length - 1) - i) with
            | some pr =>
                obtain ⟨p, off⟩ := pr
                simp only
                rw [ih f' (i + off + 1) (by omega) (by omega)]
            | none =>
                cases hmg : mapGet m (words.getD i "") with
                | some p =>
                    simp only
                    rw [ih f' (i + 1) (by omega) (by omega)]
                | none => exact ih f' (i + 1) (by omega) (by omega)
      · cases fuel' with
        | zero => simp [matchGo, hi]
        | succ f' => simp [matchGo, hi]

/-- The defining equation of the source's `while` loop, at the level of
`matchLoop`. -/
theorem matchLoop_eq (m : VideoMap) (words : List String) (i : Nat) :
    matchLoop m words i =
      if i < words.length then
        match tryWindows m words i (min (i + 2) (words.length - 1) - i) with
        | some (p, off) => p :: matchLoop m words (i + off + 1)
        | none =>
            match mapGet m (words.getD i "") with
            | some p => p :: matchLoop m words (i + 1)
            | none => matchLoop m words (i + 1)
      else [] := by
  unfold matchLoop
  by_cases hi : i < words.length
  · have h1 : words.length - i = (words.length - i - 1) + 1 := by omega
    rw [h1]
    simp only [matchGo, hi, if_true]
    cases htw : tryWindows m words i (min (i + 2) (words.length - 1) - i) with
    | some pr =>
        obtain ⟨p, off⟩ := pr
        simp only
        rw [matchGo_congr m words (words.length - i - 1) (words.length - (i + off + 1))
              (i + off + 1) (by omega) (by omega)]
    | none =>
        cases hmg : mapGet m (words.getD i "") with
        | some p =>
            simp only
            rw [matchGo_congr m words (words.length - i - 1) (words.length - (i + 1))
                  (i + 1) (by omega) (by omega)]
        | none =>
            exact matchGo_congr m words (words.length - i - 1) (words.length - (i + 1))
                  (i + 1) (by omega) (by omega)
  · have h0 : words.length - i = 0 := by omega
    rw [h0]
    simp [matchGo, hi]

theorem phraseAt_one (words : List String) (i : Nat) (h : i < words.length) :
    phraseAt words i 1 = words.getD i "" := by
  unfold phraseAt
  rw [List.drop_eq_getElem_cons h, List.getD_eq_getElem words "" h]
  simp [joinSpace]

/-- If the window scanner found nothing, then in particular the
length-1 window (the token at the cursor itself) is not a key. -/
theorem tryWindows_none_single (m : VideoMap) (words : List String) (i : Nat) :
    ∀ d, tryWindows m words i d = none → mapGet m (phraseAt words i 1) = none := by
  intro d
  induction d with
  | zero =>
      intro h
      cases hmg : mapGet m (phraseAt words i 1) with
      | some p => simp [tryWindows, hmg] at h
      | none => rfl
  | succ d ih =>
      intro h
      cases hmg : mapGet m (phraseAt words i (d + 2)) with
      | some p => simp [tryWindows, hmg] at h
      | none =>
          apply ih
          simpa [tryWindows, hmg] using h

/-- Longest-match preference of the window scanner: if the window of
length `j + 1` starting at the cursor is a key and every strictly
longer window up to the allowed top `d + 1` is not, the scanner accepts
exactly the length-`j + 1` window. -/
theorem tryWindows_longest (m : VideoMap) (words : List String) (i : Nat) :
    ∀ d j p, j ≤ d →
      mapGet m (phraseAt words i (j + 1)) = some p →
      (∀ jj, j < jj → jj ≤ d → mapGet m (phraseAt words i (jj + 1)) = none) →
      tryWindows m words i d = some (p, j) := by
  intro d
  induction d with
  | zero =>
      intro j p hj hm _
      have hj0 : j = 0 := by omega
      subst hj0
      simp [tryWindows, hm]
  | succ d ih =>
      intro j p hj hm hnone
      by_cases hjd : j = d + 1
      · subst hjd
        simp [tryWindows, hm]
      · have hlt : j ≤ d := by omega
        have htop : mapGet m (phraseAt words i (d + 2)) = none := by
          have := hnone (d + 1) (by omega) (by omega)
          simpa using this
        simp only [tryWindows, htop]
        exact ih j p hlt hm (fun jj h1 h2 => hnone jj h1 (by omega))

/-- If no window of length 1 to 3 starting anywhere is a key, the
scanner finds nothing (its allowed window lengths are within 1..3). -/
theorem tryWindows_none_of_all (m : VideoMap) (words : List String) (i : Nat) :
    ∀ d, d ≤ 2 →
      (∀ len, 1 ≤ len → len ≤ 3 → mapGet m (phraseAt words i len) = none) →
      tryWindows m words i d = none := by
  intro d
  induction d with
  | zero =>
      intro _ h
      simp [tryWindows, h 1 (by omega) (by omega)]
  | succ d ih =>
      intro hd h
      simp only [tryWindows, h (d + 2) (by omega) (by omega)]
      exact ih (by omega) h

theorem string_mk_eq_empty_iff (l : List Char) : String.mk l = "" ↔ l = [] := by
  constructor
  · intro h
    have := congrArg String.toList h
    simpa using this
  · intro h
    rw [h]

/-- Every key stored in `videoMap` is non-empty: the source guards the
`set` with `if (fileName)`, and lowercasing preserves non-emptiness. -/
theorem buildVideoMap_keys (paths : List String) :
    ∀ kv ∈ buildVideoMap paths, kv.1 ≠ "" := by
  have aux : ∀ (ps : List String) (acc : VideoMap), (∀ kv ∈ acc, kv.1 ≠ "") →
      ∀ kv ∈ ps.foldl
        (fun m p =>
          let fileName := clipFileName p
          if fileName = "" then m
          else mapSet m (String.mk (lowerChars fileName.toList)) p) acc,
        kv.1 ≠ "" := by
    intro ps
    induction ps with
    | nil => intro acc hacc kv hkv; exact hacc kv hkv
    | cons p rest ih =>
        intro acc hacc kv hkv
        simp only [List.foldl_cons] at hkv
        refine ih _ ?_ kv hkv
        intro kv' hkv'
        by_cases hf : clipFileName p = ""
        · simp only [hf, if_pos rfl] at hkv'
          exact hacc kv' hkv'
        · simp only [if_neg hf, mapSet, List.mem_cons] at hkv'
          rcases hkv' with h1 | h1
          · subst h1
            intro hcon
            apply hf
            have hl := (string_mk_eq_empty_iff _).mp hcon
            have h2 : (clipFileName p).toList = [] := by
              simpa [lowerChars] using hl
            have h3 : clipFileName p = String.mk ((clipFileName p).toList) := rfl
            rw [h2] at h3
            exact h3
          · exact hacc kv' h1
  exact aux paths [] (by simp)

/-- A key absent from every entry is not found. -/
theorem mapGet_none_of_keys (m : VideoMap) (k : String)
    (hm : ∀ kv ∈ m, kv.1 ≠ k) : mapGet m k = none := by
  unfold mapGet
  cases hf : m.find? (fun kv => kv.1 = k) with
  | none => rfl
  | some kv =>
      have h1 := List.find?_some hf
      have h2 := List.mem_of_find?_eq_some hf
      simp only [decide_eq_true_eq] at h1
      exact absurd h1 (hm kv h2)

/-- If no window of length 1..3 anywhere in the text is a key, the
whole matching loop produces nothing. -/
theorem matchGo_nil_of_nomatch (m : VideoMap) (words : List String)
    (H : ∀ i len, 1 ≤ len → len ≤ 3 → mapGet m (phraseAt words i len) = none) :
    ∀ fuel i, matchGo m words fuel i = [] := by
  intro fuel
  induction fuel with
  | zero => intro i; rfl
  | succ f ih =>
      intro i
      by_cases hi : i < words.length
      · have htw : tryWindows m words i (min (i + 2) (words.length - 1) - i) = none :=
          tryWindows_none_of_all m words i _ (by omega) (H i)
        have hmg : mapGet m (words.getD i "") = none := by
          rw [← phraseAt_one words i hi]
          exact H i 1 (by omega) (by omega)
        rw [List.getD_eq_getElem words "" hi] at hmg
        simp [matchGo, hi, htw, hmg, ih]
      · simp [matchGo, hi]

/-- The empty map matches nothing. -/
theorem matchGo_empty_map (words : List String) :
    ∀ fuel i, matchGo ([] : VideoMap) words fuel i = [] :=
  matchGo_nil_of_nomatch [] words (fun _ _ _ _ => rfl)

/-- `toLowerCase` fixes whitespace characters (`toLower` only moves the
basic latin uppercase range 65..90). -/
theorem jsIsWs_toLower (c : Char) (h : jsIsWs c = true) : Char.toLower c = c := by
  have hb : ¬ (65 ≤ c.toNat ∧ c.toNat ≤ 90) := by
    unfold jsIsWs at h
    simp only [Bool.or_eq_true, decide_eq_true_eq, or_assoc] at h
    have hv : c.toNat = c.val.toNat := rfl
    rcases h with h|h|h|h|h|h|h|h|h|h <;>
      · have h2 := congrArg UInt32.toNat h
        rw [hv, h2]
        decide
  unfold Char.toLower
  simp [hb]

/-- Splitting an all-whitespace character list yields only empty pieces
(whatever piece is currently open, provided it is empty). -/
theorem splitWsGo_all_ws :
    ∀ (l : List Char), (∀ c ∈ l, jsIsWs c = true) →
    ∀ st, (st = some [] ∨ st = none) →
    ∀ piece ∈ splitWsGo l st, piece = [] := by
  intro l
  induction l with
  | nil =>
      intro _ st hst piece hp
      rcases hst with h1 | h1 <;> subst h1 <;> simpa [splitWsGo] using hp
  | cons c rest ih =>
      intro h st hst piece hp
      have hc : jsIsWs c = true := h c (List.mem_cons_self c rest)
      have hrest : ∀ c ∈ rest, jsIsWs c = true :=
        fun c' hc' => h c' (List.mem_cons_of_mem c hc')
      rcases hst with h1 | h1 <;> subst h1
      · simp only [splitWsGo, hc, if_pos] at hp
        rcases List.mem_cons.mp hp with h2 | h2
        · simpa using h2
        · exact ih hrest none (Or.inr rfl) piece h2
      · simp only [splitWsGo, hc, if_pos] at hp
        exact ih hrest none (Or.inr rfl) piece hp

/-- A text of only whitespace and the stripped punctuation `.` `,`
tokenizes to empty tokens only. -/
theorem tokenize_all_blank (text : String)
    (h : ∀ c ∈ text.toList, jsIsWs c = true ∨ c = '.' ∨ c = ',') :
    ∀ w ∈ tokenize text, w = "" := by
  intro w hw
  unfold tokenize jsSplitWs at hw
  rcases List.mem_map.mp hw with ⟨piece, hp, hpe⟩
  have hall : ∀ c ∈ removePunct (lowerChars text.toList), jsIsWs c = true := by
    intro c hc
    unfold removePunct at hc
    have hmem := List.mem_of_mem_filter hc
    have hkeep := List.of_mem_filter hc
    rcases List.mem_map.mp hmem with ⟨c0, hc0, hce⟩
    rcases h c0 hc0 with h1 | h1 | h1
    · rw [← hce]
      rw [jsIsWs_toLower c0 h1]
      exact h1
    · subst h1
      simp at hce
      subst hce
      simp at hkeep
    · subst h1
      simp at hce
      subst hce
      simp at hkeep
  have := splitWsGo_all_ws _ hall (some []) (Or.inl rfl) piece hp
  rw [← hpe, this]

/-- With only empty tokens, every phrase window of the loop joins to
`""`, `" "` or `"  "`; if none of those three strings is a key, the
matching loop produces nothing. -/
theorem matchGo_all_blank (m : VideoMap) (words : List String)
    (hw : ∀ w ∈ words, w = "")
    (h0 : mapGet m "" = none) (h1 : mapGet m " " = none) (h2 : mapGet m "  " = none) :
    ∀ fuel i, matchGo m words fuel i = [] := by
  apply matchGo_nil_of_nomatch
  intro i len hl1 hl3
  have hall : ∀ w ∈ (words.drop i).take len, w = "" := by
    intro w hmem
    exact hw w (List.mem_of_mem_drop (List.mem_of_mem_take hmem))
  have hrep : (words.drop i).take len =
      List.replicate ((words.drop i).take len).length "" :=
    List.eq_replicate_of_mem hall
  have hlen : ((words.drop i).take len).length ≤ 3 := by
    have := List.length_take_le len (words.drop i)
    omega
  unfold phraseAt
  rw [hrep]
  have hc : ((words.drop i).take len).length = 0 ∨
      ((words.drop i).take len).length = 1 ∨
      ((words.drop i).take len).length = 2 ∨
      ((words.drop i).take len).length = 3 := by omega
  rcases hc with hc | hc | hc | hc <;> rw [hc]
  · exact h0
  · exact h0
  · exact h1
  · exact h2

/-- The playlist is the path projection of the instrumented trace. -/
theorem matchGo_eq_trace (m : VideoMap) (words : List String) :
    ∀ fuel i, matchGo m words fuel i =
      (matchGoTr m words fuel i).map (fun t => t.2.2) := by
  intro fuel
  induction fuel with
  | zero => intro i; rfl
  | succ f ih =>
      intro i
      by_cases hi : i < words.length
      · simp only [matchGo, matchGoTr, hi, if_pos]
        cases htw : tryWindows m words i (min (i + 2) (words.length - 1) - i) with
        | some pr =>
            obtain ⟨p, off⟩ := pr
            simp [ih]
        | none =>
            cases hmg : mapGet m (words.getD i "") with
            | some p => simp [ih]
            | none => simp [ih]
      · simp [matchGo, matchGoTr, hi]

/-- Weakening the lower bound of a chained trace. -/
theorem chained_mono (lo lo' : Nat) (h : lo ≤ lo') :
    ∀ l, Chained lo' l → Chained lo l := by
  intro l hc
  cases l with
  | nil => trivial
  | cons t rest => exact ⟨le_trans h hc.1, hc.2.1, hc.2.2⟩

/-- The trace's intervals advance strictly and never overlap: the token
cursor only moves forward and each token is consumed by at most one
accepted match. -/
theorem chained_trace (m : VideoMap) (words : List String) :
    ∀ fuel i, Chained i (matchGoTr m words fuel i) := by
  intro fuel
  induction fuel with
  | zero => intro i; trivial
  | succ f ih =>
      intro i
      by_cases hi : i < words.length
      · simp only [matchGoTr, hi, if_pos]
        cases htw : tryWindows m words i (min (i + 2) (words.length - 1) - i) with
        | some pr =>
            obtain ⟨p, off⟩ := pr
            exact ⟨le_refl i, by show i < i + off + 1; omega, ih (i + off + 1)⟩
        | none =>
            cases hmg : mapGet m (words.getD i "") with
            | some p => exact ⟨le_refl i, by show i < i + 1; omega, ih (i + 1)⟩
            | none => exact chained_mono i (i + 1) (by omega) _ (ih (i + 1))
      · simp only [matchGoTr, hi, if_neg, ite_false]
        trivial

/-- Deleting the single-word fallback branch changes nothing: when the
window scanner failed, the length-1 window already failed, so the
fallback `videoMap.has(words[i])` is false. -/
theorem matchGo_no_fallback_eq (m : VideoMap) (words : List String) :
    ∀ fuel i, matchGoNoFallback m words fuel i = matchGo m words fuel i := by
  intro fuel
  induction fuel with
  | zero => intro i; rfl
  | succ f ih =>
      intro i
      by_cases hi : i < words.length
      · cases htw : tryWindows m words i (min (i + 2) (words.length - 1) - i) with
        | some pr =>
            obtain ⟨p, off⟩ := pr
            simp [matchGo, matchGoNoFallback, hi, htw, ih]
        | none =>
            have hmg : mapGet m (words.getD i "") = none := by
              rw [← phraseAt_one words i hi]
              exact tryWindows_none_single m words i _ htw
            rw [List.getD_eq_getElem words "" hi] at hmg
            simp [matchGo, matchGoNoFallback, hi, htw, hmg, ih]
      · simp [matchGo, matchGoNoFallback, hi]

theorem string_mk_append (a b : List Char) :
    String.mk (a ++ b) = String.mk a ++ String.mk b := rfl

/-- A further `.mp4` occurrence cannot straddle the boundary between a
non-empty stem and the trailing `.mp4`: when `.mp4` is not an infix of
`c :: rest`, it is not a prefix of `(c :: rest) ++ ".mp4"` either (an
overlapping occurrence would force a character of `.mp4` to equal a
different character of itself). -/
theorem mp4_not_prefix_of_cons (c : Char) (rest : List Char)
    (h : ¬ (".mp4".toList <:+: (c :: rest))) :
    (".mp4".toList).isPrefixOf ((c :: rest) ++ ".mp4".toList) = false := by
  cases hb : (".mp4".toList).isPrefixOf ((c :: rest) ++ ".mp4".toList) with
  | false => rfl
  | true =>
      exfalso
      have hpre : ".mp4".toList <+: ((c :: rest) ++ ".mp4".toList) :=
        List.isPrefixOf_iff_prefix.mp hb
      have heq : ".mp4".toList = ((c :: rest) ++ ".mp4".toList).take (".mp4".toList).length :=
        List.prefix_iff_eq_take.mp hpre
      have hs : ".mp4".toList = ['.', 'm', 'p', '4'] := rfl
      rw [hs] at heq h
      rcases rest with _ | ⟨a, rest⟩
      · simp [List.take] at heq
      · rcases rest with _ | ⟨b, rest⟩
        · simp [List.take] at heq
        · rcases rest with _ | ⟨d, rest⟩
          · simp [List.take] at heq
          · rw [show ((['.', 'm', 'p', '4'] : List Char).length = 4) from rfl] at heq
            rw [List.take_append_of_le_length (by simp)] at heq
            apply h
            have hp2 : (['.', 'm', 'p', '4'] : List Char) <+: (c :: a :: b :: d :: rest) := by
              rw [heq]
              exact List.take_prefix 4 (c :: a :: b :: d :: rest)
            exact hp2.isInfix

/-- When the stem holds no further `.mp4` occurrence, the first
occurrence of `.mp4` is the final extension, so `replace('.mp4', '')`
strips exactly the extension. -/
theorem removeFirstOcc_append_not_infix :
    ∀ (stem : List Char), ¬ (".mp4".toList <:+: stem) →
      removeFirstOcc ".mp4".toList (stem ++ ".mp4".toList) = stem := by
  intro stem
  induction stem with
  | nil => intro _; decide
  | cons c rest ih =>
      intro h
      have hrest : ¬ (".mp4".toList <:+: rest) := fun hin => h (List.infix_cons hin)
      have hpre := mp4_not_prefix_of_cons c rest h
      rw [List.cons_append] at hpre
      rw [List.cons_append]
      simp only [removeFirstOcc, hpre, Bool.false_eq_true, if_false, ih hrest]

/-- Under the same no-further-occurrence condition, the key the code
stores agrees with the key the spec describes (extension stripped,
underscores to spaces, lowercased). -/
theorem storedKey_eq_specKey (p : String) (base : List Char)
    (hbase : (lastSegment p).toList = base ++ ".mp4".toList)
    (hocc : ¬ (".mp4".toList <:+: base)) :
    String.mk (lowerChars (clipFileName p).toList) = specClipKey p := by
  unfold clipFileName specClipKey
  rw [hbase, removeFirstOcc_append_not_infix base hocc]
  have hsuf : ((".mp4".toList).isSuffixOf (base ++ ".mp4".toList)) = true := by
    rw [List.isSuffixOf_iff_suffix]
    exact List.suffix_append base ".mp4".toList
  simp only [hsuf, if_true]
  have hlen : (base ++ ".mp4".toList).length - 4 = base.length := by
    simp [List.length_append]
  rw [hlen]
  have htake : (base ++ ".mp4".toList).take base.length = base := List.take_left base _
  rw [htake]
  rfl

/-- Every entry of the built `videoMap` pairs a discovered path with
exactly the code's normalization of that path: the base name with the
first `.mp4` occurrence removed, underscores to spaces, lowercased. -/
theorem buildVideoMap_entry (paths : List String) :
    ∀ kv ∈ buildVideoMap paths,
      kv.2 ∈ paths ∧ kv.1 = String.mk (lowerChars (clipFileName kv.2).toList) := by
  have aux : ∀ (ps : List String) (acc : VideoMap),
      ∀ kv ∈ ps.foldl
        (fun m p =>
          let fileName := clipFileName p
          if fileName = "" then m
          else mapSet m (String.mk (lowerChars fileName.toList)) p) acc,
        kv ∈ acc ∨
          (kv.2 ∈ ps ∧ kv.1 = String.mk (lowerChars (clipFileName kv.2).toList)) := by
    intro ps
    induction ps with
    | nil => intro acc kv hkv; exact Or.inl hkv
    | cons p rest ih =>
        intro acc kv hkv
        simp only [List.foldl_cons] at hkv
        rcases ih _ kv hkv with hmem | ⟨h1, h2⟩
        · by_cases hf : clipFileName p = ""
          · simp only [hf, if_pos rfl] at hmem
            exact Or.inl hmem
          · simp only [if_neg hf, mapSet, List.mem_cons] at hmem
            rcases hmem with he | hmem
            · right
              rw [he]
              exact ⟨List.mem_cons_self p rest, rfl⟩
            · exact Or.inl hmem
        · exact Or.inr ⟨List.mem_cons_of_mem p h1, h2⟩
  intro kv hkv
  rcases aux paths [] kv hkv with h | h
  · simp at h
  · exact h

/-- One step of the digit normalizer: each character contributes itself,
or space-digit-space when it is a digit. -/
theorem normalizeDigits_cons (c : Char) (l : List Char) :
    normalizeDigits (String.mk (c :: l)) =
      (if c.isDigit then String.mk [' ', c, ' '] else String.mk [c]) ++
        normalizeDigits (String.mk l) := by
  unfold normalizeDigits
  by_cases hd : c.isDigit <;>
    simp [hd, ← string_mk_append]

/-- With no library root (hence no clips), the stitched entry point
returns the empty playlist for every text. -/
theorem islPlaylist_empty_library (env : StitchEnv) (cwd : String)
    (name text : String) :
    getIslVideoPlaylist env cwd none name text = ([], []) := by
  unfold getIslVideoPlaylist
  by_cases ht : text = ""
  · simp [ht]
  · have hempty : matchLoop (buildVideoMap (getIslVideos none)) (tokenize text) 0 = [] :=
      matchGo_empty_map (tokenize text) _ 0
    simp [ht, hempty]

/-- C1: longest-match preference — at each cursor position the matcher
tests phrase windows from the longest allowed (up to 3 tokens) down to
length 1 and accepts the first window whose joined string is a library
key, so a longer matching phrase always wins over a shorter one at the
same starting position: if the window of length `j + 1` is a key and
every longer allowed window is not, the loop emits that window's clip
and jumps the cursor past it. -/
theorem claim1_longest_match (m : VideoMap) (words : List String) (i j : Nat) (p : String)
    (hi : i < words.length)
    (hj : j ≤ min (i + 2) (words.length - 1) - i)
    (hm : mapGet m (phraseAt words i (j + 1)) = some p)
    (hnone : ∀ jj, j < jj → jj ≤ min (i + 2) (words.length - 1) - i →
      mapGet m (phraseAt words i (jj + 1)) = none) :
    tryWindows m words i (min (i + 2) (words.length - 1) - i) = some (p, j) ∧
    matchLoop m words i = p :: matchLoop m words (i + j + 1) := by
  have htw := tryWindows_longest m words i _ j p hj hm hnone
  refine ⟨htw, ?_⟩
  rw [matchLoop_eq]
  simp [hi, htw]

/-- C1 witness: with library keys "new delhi" → A and "delhi" → B and
input "new delhi", the matching stage yields [A], never a list led by B. -/
theorem claim1_longest_match_witness :
    mapGet (buildVideoMap ["/isl_dataset/new_delhi.mp4", "/isl_dataset/delhi.mp4"])
        (phraseAt ["new", "delhi"] 0 2) = some "/isl_dataset/new_delhi.mp4" ∧
    tokenize "new delhi" = ["new", "delhi"] ∧
    matchLoop (buildVideoMap ["/isl_dataset/new_delhi.mp4", "/isl_dataset/delhi.mp4"])
        ["new", "delhi"] 0 = ["/isl_dataset/new_delhi.mp4"] := by
  refine ⟨by decide, by decide, ?_⟩
  have h := claim1_longest_match
    (buildVideoMap ["/isl_dataset/new_delhi.mp4", "/isl_dataset/delhi.mp4"])
    ["new", "delhi"] 0 1 "/isl_dataset/new_delhi.mp4"
    (by decide) (by decide) (by decide) (by intro jj h1 h2; simp at h2; omega)
  rw [h.2]
  decide

/-- C2: greedy non-overlapping consumption and order preservation — the
playlist is exactly the left-to-right projection of the match trace,
whose consumed intervals strictly advance and never overlap (the cursor
never retreats, each token feeds at most one accepted match); in the
concrete case where only "a b" and "c" are keys, "a b c" gives the two
clips in input order, not three. -/
theorem claim2_greedy_order :
    (∀ (m : VideoMap) (words : List String) (i : Nat),
        matchLoop m words i = (matchLoopTr m words i).map (fun t => t.2.2) ∧
        Chained i (matchLoopTr m words i)) ∧
    matchLoop (buildVideoMap ["/isl_dataset/a_b.mp4", "/isl_dataset/c.mp4"])
        (tokenize "a b c") 0 = ["/isl_dataset/a_b.mp4", "/isl_dataset/c.mp4"] ∧
    (matchLoop (buildVideoMap ["/isl_dataset/a_b.mp4", "/isl_dataset/c.mp4"])
        (tokenize "a b c") 0).length = 2 := by
  refine ⟨fun m words i => ⟨matchGo_eq_trace m words _ i, chained_trace m words _ i⟩,
    by decide, by decide⟩

/-- C3 counterexample: the claim "for every text containing no
alphabetic or numeric tokens the returned playlist is empty" fails: a
clip file named only with underscores ("_.mp4") produces the all-space
library key " ", and the text " . " (whitespace and stripped
punctuation only) tokenizes to two empty tokens whose two-token window
joins to exactly " ", so the playlist is non-empty. -/
theorem claim3_empty_outcomes_cex :
    (∀ c ∈ (" . " : String).toList, jsIsWs c = true ∨ c = '.' ∨ c = ',') ∧
    (getIslVideoPlaylist ⟨true, true, true⟩ "/app" (some [.file "_.mp4"]) "o.mp4" " . ").1
      = ["/isl_dataset/_.mp4"] := by
  exact ⟨by decide, by decide⟩

/-- C3 amended: the matcher returns the empty sequence when the text is
empty, when the library is empty, and when no phrase window of length
1..3 matches any key; and a text of only whitespace and the stripped
punctuation "." and "," yields the empty playlist PROVIDED no library
key is a pure-space string (" " or "  ", as arise only from clip names
consisting solely of underscores). -/
theorem claim3_empty_outcomes_amended :
    (∀ env cwd root name, getIslVideoPlaylist env cwd root name "" = ([], [])) ∧
    (∀ env cwd name text, getIslVideoPlaylist env cwd none name text = ([], [])) ∧
    (∀ (m : VideoMap) (words : List String),
        (∀ i len, 1 ≤ len → len ≤ 3 → mapGet m (phraseAt words i len) = none) →
        ∀ i, matchLoop m words i = []) ∧
    (∀ env cwd root name (text : String),
        (∀ c ∈ text.toList, jsIsWs c = true ∨ c = '.' ∨ c = ',') →
        mapGet (buildVideoMap (getIslVideos root)) " " = none →
        mapGet (buildVideoMap (getIslVideos root)) "  " = none →
        (getIslVideoPlaylist env cwd root name text).1 = []) := by
  refine ⟨?_, islPlaylist_empty_library, ?_, ?_⟩
  · intro env cwd root name
    simp [getIslVideoPlaylist]
  · intro m words H i
    exact matchGo_nil_of_nomatch m words H _ i
  · intro env cwd root name text hc h1 h2
    have h0 : mapGet (buildVideoMap (getIslVideos root)) "" = none :=
      mapGet_none_of_keys _ "" (fun kv hkv => buildVideoMap_keys _ kv hkv)
    have hblank : ∀ w ∈ tokenize text, w = "" := tokenize_all_blank text hc
    have hm : matchLoop (buildVideoMap (getIslVideos root)) (tokenize text) 0 = [] :=
      matchGo_all_blank _ _ hblank h0 h1 h2 _ 0
    unfold getIslVideoPlaylist
    by_cases ht : text = ""
    · simp [ht]
    · simp [ht, hm]

/-- C3 witness for the amended claim: an all-blank text with an
ordinary library yields the empty playlist. -/
theorem claim3_empty_outcomes_witness :
    (∀ c ∈ (" , . " : String).toList, jsIsWs c = true ∨ c = '.' ∨ c = ',') ∧
    (getIslVideoPlaylist ⟨true, true, true⟩ "/app" (some [.file "Hello.mp4"]) "o.mp4" " , . ").1
      = [] :=
  ⟨by decide,
    claim3_empty_outcomes_amended.2.2.2 ⟨true, true, true⟩ "/app"
      (some [.file "Hello.mp4"]) "o.mp4" " , . " (by decide) (by decide) (by decide)⟩

/-- C4: stitcher identity and empty guard — the empty path list returns
null, and a singleton returns its path unchanged; in both cases the
effect trace is empty: no directory is created, no manifest written, no
ffmpeg command executed. -/
theorem claim4_stitch_identity :
    (∀ env cwd name, stitchVideosWithFfmpeg env cwd [] name = (none, [])) ∧
    (∀ env cwd name p, stitchVideosWithFfmpeg env cwd [p] name = (some p, [])) := by
  exact ⟨fun env cwd name => rfl, fun env cwd name p => rfl⟩

/-- C5: stitching failure semantics — with two or more paths, if any
fallible step of the stitcher fails (directory creation, manifest
write, or the external ffmpeg invocation), the stitcher returns null;
and whenever the stitcher of the matched playlist returns null, the
stitched entry point returns the empty list, never the unstitched
multi-clip playlist. -/
theorem claim5_stitch_failure :
    (∀ env cwd (paths : List String) name,
        2 ≤ paths.length →
        (env.mkdirOk = false ∨ env.writeOk = false ∨ env.execOk = false) →
        (stitchVideosWithFfmpeg env cwd paths name).1 = none) ∧
    (∀ env cwd root name text,
        (stitchVideosWithFfmpeg env cwd
            (matchLoop (buildVideoMap (getIslVideos root)) (tokenize text) 0) name).1 = none →
        (getIslVideoPlaylist env cwd root name text).1 = []) := by
  constructor
  · intro env cwd paths name hlen hfail
    obtain ⟨mk, wr, ex⟩ := env
    have h0 : ¬ paths.length = 0 := by omega
    have h1 : ¬ paths.length = 1 := by omega
    cases mk <;> cases wr <;> cases ex <;>
      simp_all [stitchVideosWithFfmpeg, h0, h1]
  · intro env cwd root name text hstitch
    unfold getIslVideoPlaylist
    by_cases ht : text = ""
    · simp [ht]
    · by_cases hp : 0 < (matchLoop (buildVideoMap (getIslVideos root)) (tokenize text) 0).length
      · rcases hs : stitchVideosWithFfmpeg env cwd
            (matchLoop (buildVideoMap (getIslVideos root)) (tokenize text) 0) name
          with ⟨res, ops⟩
        rw [hs] at hstitch
        simp only at hstitch
        subst hstitch
        simp [ht, hp, hs]
      · simp [ht, hp]

/-- C6: a missing or inaccessible library root is not an error — the
indexer returns the empty list (and an unreadable subdirectory is
skipped), so the whole pipeline behaves exactly as if nothing matched:
the stitched entry point returns the empty playlist for every text. -/
theorem claim6_missing_root :
    getIslVideos none = [] ∧
    (∀ dirPath nm entries, findVideosEntry dirPath (.dir nm false entries) = []) ∧
    (∀ env cwd name text, (getIslVideoPlaylist env cwd none name text).1 = []) := by
  refine ⟨rfl, ?_, ?_⟩
  · intro dirPath nm entries
    simp [findVideosEntry]
  · intro env cwd name text
    rw [islPlaylist_empty_library]

/-- C7 counterexample: the stored key is NOT always "base name with the
extension stripped, underscores to spaces, lowercased": for the
discovered file `a.mp4b.mp4` the spec's key would be "a.mp4b", but the
code removes the FIRST occurrence of ".mp4" and stores the clip under
"ab.mp4" instead. -/
theorem claim7_key_normalization_cex :
    specClipKey "/isl_dataset/a.mp4b.mp4" = "a.mp4b" ∧
    mapGet (buildVideoMap (getIslVideos (some [.file "a.mp4b.mp4"]))) "a.mp4b" = none ∧
    mapGet (buildVideoMap (getIslVideos (some [.file "a.mp4b.mp4"]))) "ab.mp4"
      = some "/isl_dataset/a.mp4b.mp4" := by
  exact ⟨by decide, by decide, by decide⟩

/-- C7 amended: the library key under which each discovered clip path
is stored is the file's base name with the FIRST occurrence of the
substring ".mp4" removed, underscores replaced by spaces, and
lowercased; whenever the base name minus its final ".mp4" contains no
further ".mp4" occurrence (so in particular for names with extra dots
such as `a.b.mp4`), this coincides with stripping the extension;
consequently `Mumbai_Central.mp4` is stored under "mumbai central" and
matched by the input "MUMBAI Central" regardless of casing. -/
theorem claim7_key_normalization_amended :
    (∀ (paths : List String), ∀ kv ∈ buildVideoMap paths,
        kv.2 ∈ paths ∧ kv.1 = String.mk (lowerChars (clipFileName kv.2).toList)) ∧
    (∀ (p : String) (base : List Char),
        (lastSegment p).toList = base ++ ".mp4".toList →
        ¬ (".mp4".toList <:+: base) →
        String.mk (lowerChars (clipFileName p).toList) = specClipKey p) ∧
    specClipKey "/isl_dataset/a.b.mp4"
      = String.mk (lowerChars (clipFileName "/isl_dataset/a.b.mp4").toList) ∧
    matchLoop (buildVideoMap (getIslVideos (some [.file "Mumbai_Central.mp4"])))
        (tokenize "MUMBAI Central") 0 = ["/isl_dataset/Mumbai_Central.mp4"] ∧
    mapGet (buildVideoMap (getIslVideos (some [.file "Mumbai_Central.mp4"])))
        "mumbai central" = some "/isl_dataset/Mumbai_Central.mp4" := by
  exact ⟨buildVideoMap_entry, storedKey_eq_specKey, by decide, by decide, by decide⟩

/-- C7 witness for the amended claim, at `Mumbai_Central.mp4`: its map
entry carries the code's key, and since its stem holds no further
".mp4" occurrence the stored key equals the spec's stripped key. -/
theorem claim7_key_normalization_witness :
    (("mumbai central", "/isl_dataset/Mumbai_Central.mp4") ∈
        buildVideoMap ["/isl_dataset/Mumbai_Central.mp4"]) ∧
    ("/isl_dataset/Mumbai_Central.mp4" ∈ (["/isl_dataset/Mumbai_Central.mp4"] : List String) ∧
      ("mumbai central" : String)
        = String.mk (lowerChars (clipFileName "/isl_dataset/Mumbai_Central.mp4").toList)) ∧
    (lastSegment "/isl_dataset/Mumbai_Central.mp4").toList
      = "Mumbai_Central".toList ++ ".mp4".toList ∧
    ¬ (".mp4".toList <:+: "Mumbai_Central".toList) ∧
    String.mk (lowerChars (clipFileName "/isl_dataset/Mumbai_Central.mp4").toList)
      = specClipKey "/isl_dataset/Mumbai_Central.mp4" :=
  ⟨by decide,
    claim7_key_normalization_amended.1 ["/isl_dataset/Mumbai_Central.mp4"]
      ("mumbai central", "/isl_dataset/Mumbai_Central.mp4") (by decide),
    by decide, by decide,
    claim7_key_normalization_amended.2.1 "/isl_dataset/Mumbai_Central.mp4"
      "Mumbai_Central".toList (by decide) (by decide)⟩

/-- C8: digit normalization — each character maps to itself unless it
is a digit, in which case a space is inserted immediately before and
after it (per digit, not per numeric run), so "12" becomes " 1  2 ",
and "Train 12 arriving" tokenizes with "1" and "2" as separate tokens. -/
theorem claim8_digit_normalization :
    (∀ (c : Char) (l : List Char),
        normalizeDigits (String.mk (c :: l)) =
          (if c.isDigit then String.mk [' ', c, ' '] else String.mk [c]) ++
            normalizeDigits (String.mk l)) ∧
    normalizeDigits "" = "" ∧
    normalizeDigits "12" = " 1  2 " ∧
    tokenize (normalizeDigits "Train 12 arriving") = ["train", "1", "2", "arriving"] := by
  exact ⟨normalizeDigits_cons, rfl, by decide, by decide⟩

/-- C9: stitched output cardinality — the stitched entry point always
returns zero or one path, never a multi-element per-word clip list. -/
theorem claim9_output_cardinality (env : StitchEnv) (cwd : String)
    (root : Option (List FsEntry)) (name text : String) :
    (getIslVideoPlaylist env cwd root name text).1.length ≤ 1 := by
  unfold getIslVideoPlaylist
  by_cases ht : text = ""
  · simp [ht]
  · by_cases hp : 0 < (matchLoop (buildVideoMap (getIslVideos root)) (tokenize text) 0).length
    · rcases hs : stitchVideosWithFfmpeg env cwd
          (matchLoop (buildVideoMap (getIslVideos root)) (tokenize text) 0) name
        with ⟨res, ops⟩
      cases res with
      | some sv =>
          by_cases hsv : sv = "" <;> simp [ht, hp, hs, hsv]
      | none => simp [ht, hp, hs]
    · simp [ht, hp]

/-- C10: the single-word fallback branch is redundant — the window loop
already tests the length-1 window at every cursor position, so when the
scanner found nothing the fallback `videoMap.has(words[i])` is
necessarily false, and deleting the fallback lookup yields exactly the
same playlist for every input and library. -/
theorem claim10_fallback_redundant :
    (∀ (m : VideoMap) (words : List String) (i : Nat),
        matchLoopNoFallback m words i = matchLoop m words i) ∧
    (∀ (m : VideoMap) (words : List String) (i : Nat),
        i < words.length →
        tryWindows m words i (min (i + 2) (words.length - 1) - i) = none →
        mapGet m (words.getD i "") = none) := by
  constructor
  · intro m words i
    exact matchGo_no_fallback_eq m words _ i
  · intro m words i hi htw
    rw [← phraseAt_one words i hi]
    exact tryWindows_none_single m words i _ htw

/-- C10 witness: a token absent from the library fails the window loop
and the fallback lookup alike. -/
theorem claim10_fallback_redundant_witness :
    0 < (["zz"] : List String).length ∧
    tryWindows (buildVideoMap ["/isl_dataset/a.mp4"]) ["zz"] 0
      (min (0 + 2) ((["zz"] : List String).length - 1) - 0) = none ∧
    mapGet (buildVideoMap ["/isl_dataset/a.mp4"]) ((["zz"] : List String).getD 0 "") = none :=
  ⟨by decide, by decide,
    claim10_fallback_redundant.2 (buildVideoMap ["/isl_dataset/a.mp4"]) ["zz"] 0
      (by decide) (by decide)⟩

/-- C5 witness: with two clips and a failing ffmpeg invocation, the
stitcher returns null and the entry point returns the empty list. -/
theorem claim5_stitch_failure_witness :
    2 ≤ (["/isl_dataset/a.mp4", "/isl_dataset/b.mp4"] : List String).length ∧
    (stitchVideosWithFfmpeg ⟨true, true, false⟩ "/app"
        ["/isl_dataset/a.mp4", "/isl_dataset/b.mp4"] "o.mp4").1 = none ∧
    (getIslVideoPlaylist ⟨true, true, false⟩ "/app"
        (some [.file "a.mp4", .file "b.mp4"]) "o.mp4" "a b").1 = [] :=
  ⟨by decide,
    claim5_stitch_failure.1 ⟨true, true, false⟩ "/app"
      ["/isl_dataset/a.mp4", "/isl_dataset/b.mp4"] "o.mp4" (by decide)
      (Or.inr (Or.inr rfl)),
    claim5_stitch_failure.2 ⟨true, true, false⟩ "/app"
      (some [.file "a.mp4", .file "b.mp4"]) "o.mp4" "a b" (by decide)⟩
